import Mathlib

/-!
Shallow embedding of the Price-Panda-Proxy matching/ranking core.

The embedded code is the "Smart Hybrid" handler in `src/api/proxy.js`
(tokenizer `getKeywordSet`, similarity `calculateSimilarity`, the Smart
Filter, the price gate, the score blend and the final sort) and the
dedup-merge of two result lists in `src/unnamed/part_000`
(`new Map([...A, ...B].map(item => [item.product_id, item])).values()`).

Conventions of the embedding:
* JS strings are `List Char`; `jsToLower` models `String.prototype.toLowerCase`
  on the ASCII range (non-ASCII letters are stripped by the tokenizer's
  character filter either way).
* JS `Set`s are duplicate-free lists in insertion order (`firstDedup`),
  matching the iteration order of JS sets.
* JS numbers are `JsNum`: either NaN, an infinity, or an exact rational.
  `Candidate.sale_price` holds the value of `parseFloat(item.sale_price)`
  (NaN when the text is malformed); comparisons follow IEEE/JS semantics
  (every comparison with NaN is false).
* JS `Map` is an association list in key-insertion order; `mapSet` models
  `Map.prototype.set`: an existing key keeps its position but its value is
  overwritten.
-/

/-- First-occurrence deduplication: the list of distinct elements of `l` in
order of first appearance.  This is the element order of `new Set(l)` in JS. -/
def firstDedup {α : Type} [DecidableEq α] : List α → List α
  | [] => []
  | a :: l => a :: (firstDedup l).filter (fun b => decide (b ≠ a))

/-- `String.prototype.toLowerCase`, restricted to the ASCII letters that
survive the tokenizer's character filter. -/
def jsToLower (c : Char) : Char :=
  if 'A' ≤ c ∧ c ≤ 'Z' then Char.ofNat (c.toNat + 32) else c

/-- The characters matched by the JS regex class `\s`. -/
def jsWhitespace : List Char :=
  [' ', '\t', '\n', '\r', '\u000B', '\u000C', ' ', ' ', ' ', ' ',
   ' ', ' ', ' ', ' ', ' ', ' ', ' ', ' ',
   ' ', ' ', ' ', ' ', ' ', '　', '﻿']

def isJsSpace (c : Char) : Bool := jsWhitespace.contains c

/-- A character kept by `.replace(/[^a-z0-9\s-]/g, '')`. -/
def keepChar (c : Char) : Bool :=
  decide ('a' ≤ c ∧ c ≤ 'z') || decide ('0' ≤ c ∧ c ≤ '9') || isJsSpace c || decide (c = '-')

/-- `.split(/\s+/)` up to empty fields: splitting on every single whitespace
character.  Runs of whitespace produce empty fields, which the tokenizer's
`filter(word => word && ...)` discards, so after that filter this agrees with
splitting on runs. -/
def splitFields : List Char → List (List Char)
  | [] => [[]]
  | c :: cs =>
    if isJsSpace c then [] :: splitFields cs
    else
      match splitFields cs with
      | [] => [[c]]
      | f :: fs => (c :: f) :: fs

/-- Join tokens with single spaces (used to feed a keyword set back into the
tokenizer when stating idempotence). -/
def joinTokens : List (List Char) → List Char
  | [] => []
  | [w] => w
  | w :: ws => w ++ ' ' :: joinTokens ws

/-- The `stopWords` set of `src/api/proxy.js` (the source lists `'for'`
twice; as in a JS `Set`, membership is unaffected). -/
def stopWords : List (List Char) :=
  ["a".data, "an".data, "for".data, "with".data, "the".data, "and".data, "in".data,
   "on".data, "of".data, "at".data, "to".data, "is".data, "it".data, "pcs".data,
   "set".data, "new".data, "hot".data, "for".data, "compatible".data, "plus".data,
   "pro".data, "max".data, "ultra".data, "mini".data, "gen".data, "series".data]

/-- `getKeywordSet` of `src/api/proxy.js`: lower-case, strip characters outside
`[a-z0-9\s-]`, split on whitespace, drop empty words and stop-words, collect
into a set. -/
def getKeywordSet (text : List Char) : List (List Char) :=
  firstDedup
    ((splitFields ((text.map jsToLower).filter keepChar)).filter
      (fun word => !word.isEmpty && !stopWords.contains word))

/-- `calculateSimilarity` of `src/api/proxy.js`, on JS sets represented as
duplicate-free lists. -/
def calculateSimilarity (setA setB : List (List Char)) : ℚ :=
  if setA.length = 0 ∨ setB.length = 0 then 0
  else if (firstDedup (setA ++ setB)).length = 0 then 0
  else ((setA.filter (fun x => setB.contains x)).length : ℚ) /
    ((firstDedup (setA ++ setB)).length : ℚ)

/-- `sub` occurs at the start of `s` (helper for `includesChars`). -/
def beginsWith : List Char → List Char → Bool
  | [], _ => true
  | _ :: _, [] => false
  | a :: as, b :: bs => decide (a = b) && beginsWith as bs

/-- `String.prototype.includes`: `term` occurs contiguously inside `s`. -/
def includesChars (s term : List Char) : Bool :=
  match s with
  | [] => term.isEmpty
  | _ :: rest => beginsWith term s || includesChars rest term

/-- `PRODUCT_NOUNS` of `src/api/proxy.js`. -/
def PRODUCT_NOUNS : List (List Char) :=
  ["case".data, "cover".data, "skin".data, "charger".data, "adapter".data, "cable".data,
   "powerbank".data, "battery".data, "mount".data, "stand".data, "holder".data,
   "grip".data, "tripod".data, "headphones".data, "earbuds".data, "headset".data,
   "speaker".data, "screen".data, "protector".data, "film".data, "glass".data,
   "wallet".data, "airpods".data]

/-- `PRODUCT_CONFLICT_MAP` of `src/api/proxy.js`. -/
def PRODUCT_CONFLICT_MAP : List (List Char × List (List Char)) :=
  [("case".data,
    ["screen".data, "protector".data, "film".data, "glass".data, "charger".data,
     "cable".data, "wallet".data, "airpods".data, "stand".data, "holder".data,
     "mount".data, "grip".data, "powerbank".data]),
   ("screen".data,
    ["case".data, "cover".data, "charger".data, "cable".data, "wallet".data,
     "airpods".data, "stand".data, "holder".data]),
   ("protector".data,
    ["case".data, "cover".data, "charger".data, "cable".data, "wallet".data,
     "airpods".data, "stand".data, "holder".data]),
   ("charger".data,
    ["case".data, "cover".data, "screen".data, "protector".data, "film".data,
     "glass".data, "stand".data, "holder".data, "mount".data, "grip".data])]

/-- `PRODUCT_CONFLICT_MAP.get(noun)` guarded by `has`. -/
def conflictLookup (noun : List Char) : Option (List (List Char)) :=
  (PRODUCT_CONFLICT_MAP.find? (fun e => decide (e.1 = noun))).map Prod.snd

/-- A JS number: NaN, ±Infinity, or a finite value (exact rational model). -/
inductive JsNum where
  | nan
  | posInf
  | negInf
  | num (q : ℚ)
deriving DecidableEq

/-- JS `<` on numbers; every comparison involving NaN is false. -/
def jsLt : JsNum → JsNum → Bool
  | JsNum.nan, _ => false
  | _, JsNum.nan => false
  | JsNum.negInf, JsNum.negInf => false
  | JsNum.negInf, _ => true
  | _, JsNum.negInf => false
  | JsNum.posInf, _ => false
  | JsNum.num _, JsNum.posInf => true
  | JsNum.num a, JsNum.num b => decide (a < b)

/-- A candidate listing as consumed by the scoring stage: its title text and
the value `parseFloat(item.sale_price)` (NaN when the price text is
malformed).  Display-only passthrough fields (link, image, currency) carry no
logic and are elided. -/
structure Candidate where
  product_title : List Char
  sale_price : JsNum
deriving DecidableEq

/-- An element of the ranked output: original title, parsed price and blended
score (display-only fields elided). -/
structure Scored where
  title : List Char
  price : JsNum
  score : ℚ
deriving DecidableEq

/-- The body of the `.map` at lines 124–139 of `src/api/proxy.js`: price gate
(`itemPriceNum > 0 && itemPriceNum < amazonPrice`), then tokenize the title,
blend the two Jaccard scores with weights 0.40/0.60, and build the result
record; `none` models `null`. -/
def scoreItem (userQueryKeywords titleKeywords : List (List Char)) (amazonPrice : ℚ)
    (item : Candidate) : Option Scored :=
  let itemPriceNum := item.sale_price
  if !(jsLt (JsNum.num 0) itemPriceNum && jsLt itemPriceNum (JsNum.num amazonPrice)) then
    none
  else
    let aliexpressKeywords := getKeywordSet item.product_title
    let userIntentScore := calculateSimilarity userQueryKeywords aliexpressKeywords
    let productContextScore := calculateSimilarity titleKeywords aliexpressKeywords
    let finalScore := (0.40 : ℚ) * userIntentScore + (0.60 : ℚ) * productContextScore
    some { title := item.product_title, price := itemPriceNum, score := finalScore }

/-- `[...combinedAmazonKeywords].find(kw => PRODUCT_NOUNS.has(kw))`. -/
def coreNounOf (combinedAmazonKeywords : List (List Char)) : Option (List Char) :=
  combinedAmazonKeywords.find? (fun kw => PRODUCT_NOUNS.contains kw)

/-- `[...forbiddenProducts].some(term => aliexpressTitle.includes(term))` with
`aliexpressTitle = item.product_title.toLowerCase()`. -/
def forbiddenHit (forbiddenProducts : List (List Char)) (item : Candidate) : Bool :=
  forbiddenProducts.any (fun term => includesChars (item.product_title.map jsToLower) term)

/-- Stage 1 of the Smart Hybrid algorithm (lines 110–120 of
`src/api/proxy.js`). -/
def smartFilter (combinedAmazonKeywords : List (List Char)) (allResults : List Candidate) :
    List Candidate :=
  match coreNounOf combinedAmazonKeywords with
  | none => allResults
  | some coreNoun =>
    match conflictLookup coreNoun with
    | none => allResults
    | some forbiddenProducts =>
      allResults.filter (fun item => !forbiddenHit forbiddenProducts item)

/-- Score ordering used by `alternatives.sort((a, b) => b.score - a.score)`:
`a` may come before `b` precisely when its score is not smaller. -/
def scoreGe (a b : Scored) : Prop := b.score ≤ a.score

instance : DecidableRel scoreGe :=
  fun a b => inferInstanceAs (Decidable (b.score ≤ a.score))

instance : IsTotal Scored scoreGe := ⟨fun a b => le_total b.score a.score⟩

instance : IsTrans Scored scoreGe := ⟨fun _ _ _ h1 h2 => le_trans h2 h1⟩

/-- The stable descending sort at line 142 of `src/api/proxy.js` (ECMAScript
mandates `Array.prototype.sort` to be stable; insertion sort with `scoreGe`
realises exactly that behaviour). -/
def sortByScoreDesc (l : List Scored) : List Scored := l.insertionSort scoreGe

/-- Stage 2 of the Smart Hybrid algorithm: map candidates through the scorer,
keep the non-null results with positive score, sort by score descending. -/
def rankCandidates (userQueryKeywords titleKeywords : List (List Char)) (amazonPrice : ℚ)
    (candidates : List Candidate) : List Scored :=
  sortByScoreDesc
    ((candidates.filterMap (scoreItem userQueryKeywords titleKeywords amazonPrice)).filter
      (fun item => decide (0 < item.score)))

/-- Lines 86–88 then 107–142 of `src/api/proxy.js`: tokenize the reference
texts, build the combined keyword set (query keywords inserted first), smart
filter, score and rank.  A missing `amazonSearchQuery` is the empty text
(`amazonSearchQuery || ''`). -/
def corePipeline (amazonTitle amazonSearchQuery : List Char) (amazonPrice : ℚ)
    (allResults : List Candidate) : List Scored :=
  let titleKeywords := getKeywordSet amazonTitle
  let userQueryKeywords := getKeywordSet amazonSearchQuery
  let combinedAmazonKeywords := firstDedup (userQueryKeywords ++ titleKeywords)
  let candidates := smartFilter combinedAmazonKeywords allResults
  rankCandidates userQueryKeywords titleKeywords amazonPrice candidates

/-- A raw product record as used by the dedup-merge path of
`src/unnamed/part_000`; only the identifier and a payload (title) matter. -/
structure Product where
  product_id : Nat
  product_title : List Char
deriving DecidableEq

/-- `Map.prototype.set`: an existing key keeps its position but its value is
overwritten; a new key is appended. -/
def mapSet (m : List (Nat × Product)) (k : Nat) (v : Product) : List (Nat × Product) :=
  if k ∈ m.map Prod.fst then m.map (fun e => if e.1 = k then (k, v) else e)
  else m ++ [(k, v)]

/-- `new Map(entries)`: insert the entries left to right into an empty map. -/
def jsMapOfEntries (entries : List (Nat × Product)) : List (Nat × Product) :=
  entries.foldl (fun m e => mapSet m e.1 e.2) []

/-- Line 81 of `src/unnamed/part_000`:
`Array.from(new Map([...A, ...B].map(item => [item.product_id, item])).values())`. -/
def dedupMerge (bestMatchResults bestSellerResults : List Product) : List Product :=
  (jsMapOfEntries ((bestMatchResults ++ bestSellerResults).map
    (fun item => (item.product_id, item)))).map Prod.snd
theorem contains_iff_mem {α : Type} [BEq α] [LawfulBEq α] (l : List α) (x : α) :
    l.contains x = true ↔ x ∈ l := List.elem_iff

theorem firstDedup_cons {α : Type} [DecidableEq α] (a : α) (l : List α) :
    firstDedup (a :: l) = a :: (firstDedup l).filter (fun b => decide (b ≠ a)) := rfl

theorem mem_firstDedup {α : Type} [DecidableEq α] (l : List α) (x : α) :
    x ∈ firstDedup l ↔ x ∈ l := by
  induction l with
  | nil => simp [firstDedup]
  | cons a l ih =>
    simp only [firstDedup_cons, List.mem_cons, List.mem_filter, decide_eq_true_eq, ih]
    constructor
    · rintro (rfl | ⟨h, _⟩)
      · exact Or.inl rfl
      · exact Or.inr h
    · rintro (rfl | h)
      · exact Or.inl rfl
      · by_cases hx : x = a
        · exact Or.inl hx
        · exact Or.inr ⟨h, hx⟩

theorem nodup_firstDedup {α : Type} [DecidableEq α] (l : List α) : (firstDedup l).Nodup := by
  induction l with
  | nil => simp [firstDedup]
  | cons a l ih =>
    rw [firstDedup_cons]
    refine List.Nodup.cons (fun hmem => ?_) (List.Nodup.filter _ ih)
    have := (List.mem_filter.mp hmem).2
    simp at this

theorem firstDedup_eq_self {α : Type} [DecidableEq α] (l : List α) :
    l.Nodup → firstDedup l = l := by
  induction l with
  | nil => intro _; rfl
  | cons a l ih =>
    intro h
    rw [firstDedup_cons, ih (List.nodup_cons.mp h).2,
        List.filter_eq_self.mpr fun b hb => by
          simp only [decide_eq_true_eq]
          rintro rfl
          exact (List.nodup_cons.mp h).1 hb]

theorem find?_filter_of_imp {α : Type} (p q : α → Bool) (l : List α)
    (h : ∀ x, q x = false → p x = false) : (l.filter q).find? p = l.find? p := by
  induction l with
  | nil => rfl
  | cons b l ih =>
    by_cases hqb : q b = true
    · rw [List.filter_cons_of_pos hqb]
      by_cases hpb : p b = true
      · rw [List.find?_cons_of_pos _ hpb, List.find?_cons_of_pos _ hpb]
      · rw [List.find?_cons_of_neg _ (by simpa using hpb),
            List.find?_cons_of_neg _ (by simpa using hpb), ih]
    · have hq : q b = false := by simpa using hqb
      rw [List.filter_cons_of_neg (by simpa using hqb), ih,
          List.find?_cons_of_neg _ (by simp [h b hq])]

theorem find?_firstDedup {α : Type} [DecidableEq α] (p : α → Bool) (l : List α) :
    (firstDedup l).find? p = l.find? p := by
  induction l with
  | nil => rfl
  | cons a l ih =>
    by_cases hpa : p a = true
    · rw [firstDedup_cons, List.find?_cons_of_pos _ hpa, List.find?_cons_of_pos _ hpa]
    · rw [firstDedup_cons, List.find?_cons_of_neg _ (by simpa using hpa),
          List.find?_cons_of_neg _ (by simpa using hpa),
          find?_filter_of_imp p _ _ fun x hx => ?_, ih]
      have : x = a := by simpa using hx
      subst this
      simpa using hpa

theorem toFinset_firstDedup {α : Type} [DecidableEq α] (l : List α) :
    (firstDedup l).toFinset = l.toFinset := by
  ext x
  simp [mem_firstDedup]

theorem length_firstDedup {α : Type} [DecidableEq α] (l : List α) :
    (firstDedup l).length = l.toFinset.card := by
  rw [← List.toFinset_card_of_nodup (nodup_firstDedup l), toFinset_firstDedup]

theorem firstDedup_append {α : Type} [DecidableEq α] (l l' : List α) :
    firstDedup (l ++ l') =
      firstDedup l ++ (firstDedup l').filter (fun b => decide (b ∉ l)) := by
  induction l with
  | nil =>
    simp only [List.nil_append, firstDedup]
    rw [List.filter_eq_self.mpr fun b _ => by simp]
  | cons a l ih =>
    rw [List.cons_append, firstDedup_cons, ih, List.filter_append, firstDedup_cons,
        List.cons_append, List.filter_filter]
    congr 2
    refine List.filter_congr fun b _ => ?_
    by_cases h1 : b = a <;> by_cases h2 : b ∈ l <;> simp [h1, h2, List.mem_cons]

theorem firstDedup_append_self {α : Type} [DecidableEq α] (l : List α) (h : l.Nodup) :
    firstDedup (l ++ l) = l := by
  rw [firstDedup_append, firstDedup_eq_self l h,
      List.filter_eq_nil_iff.mpr fun b hb => by simp [hb], List.append_nil]

theorem firstDedup_concat {α : Type} [DecidableEq α] (k : α) (l : List α) :
    firstDedup (l ++ [k]) = if k ∈ l then firstDedup l else firstDedup l ++ [k] := by
  rw [firstDedup_append]
  have h1 : firstDedup [k] = [k] := rfl
  rw [h1]
  by_cases hk : k ∈ l
  · rw [if_pos hk, List.filter_cons_of_neg (by simp [hk]), List.filter_nil, List.append_nil]
  · rw [if_neg hk, List.filter_cons_of_pos (by simp [hk]), List.filter_nil]

theorem beginsWith_iff (term s : List Char) :
    beginsWith term s = true ↔ ∃ post, s = term ++ post := by
  induction term generalizing s with
  | nil => simp [beginsWith]
  | cons a as ih =>
    cases s with
    | nil =>
      simp only [beginsWith, List.cons_append]
      constructor
      · intro h; cases h
      · rintro ⟨post, h⟩; cases h
    | cons b bs =>
      simp only [beginsWith, Bool.and_eq_true, decide_eq_true_eq, ih, List.cons_append,
        List.cons.injEq]
      constructor
      · rintro ⟨rfl, post, rfl⟩; exact ⟨post, rfl, rfl⟩
      · rintro ⟨post, rfl, rfl⟩; exact ⟨rfl, post, rfl⟩

theorem includesChars_iff (s term : List Char) :
    includesChars s term = true ↔ ∃ pre post, s = pre ++ term ++ post := by
  induction s with
  | nil =>
    simp only [includesChars, List.isEmpty_iff]
    constructor
    · rintro rfl; exact ⟨[], [], rfl⟩
    · rintro ⟨pre, post, h⟩
      rcases List.append_eq_nil.mp (List.append_eq_nil.mp h.symm).1 with ⟨-, h2⟩
      exact h2
  | cons c rest ih =>
    simp only [includesChars, Bool.or_eq_true, beginsWith_iff, ih]
    constructor
    · rintro (⟨post, h⟩ | ⟨pre, post, rfl⟩)
      · exact ⟨[], post, by simp [h]⟩
      · exact ⟨c :: pre, post, rfl⟩
    · rintro ⟨pre, post, h⟩
      cases pre with
      | nil => exact Or.inl ⟨post, by simpa using h⟩
      | cons p ps =>
        rw [List.cons_append, List.cons_append, List.cons.injEq] at h
        exact Or.inr ⟨ps, post, h.2⟩

theorem jsLt_gate {v : JsNum} {price : ℚ}
    (h1 : jsLt (JsNum.num 0) v = true) (h2 : jsLt v (JsNum.num price) = true) :
    ∃ p : ℚ, v = JsNum.num p ∧ 0 < p ∧ p < price := by
  cases v with
  | nan => simp [jsLt] at h1
  | posInf => simp [jsLt] at h2
  | negInf => simp [jsLt] at h1
  | num q =>
    refine ⟨q, rfl, ?_, ?_⟩
    · simpa [jsLt] using h1
    · simpa [jsLt] using h2
/-- A character that can appear inside a produced keyword: it survives the
strip filter and is not whitespace. -/
def tokenChar (c : Char) : Prop := keepChar c = true ∧ isJsSpace c = false

theorem jsToLower_eq_self_of_tokenChar {c : Char} (h : tokenChar c) : jsToLower c = c := by
  obtain ⟨hk, hs⟩ := h
  rw [jsToLower, if_neg]
  rintro ⟨h1, h2⟩
  rw [keepChar, hs] at hk
  simp only [Bool.or_false, Bool.or_eq_true, decide_eq_true_eq] at hk
  rcases hk with (⟨ha, _⟩ | ⟨_, h9⟩) | rfl
  · exact absurd (le_trans ha h2) (by decide)
  · exact absurd (le_trans h1 h9) (by decide)
  · exact absurd h1 (by decide)

theorem splitFields_cons_space {c : Char} (h : isJsSpace c = true) (cs : List Char) :
    splitFields (c :: cs) = [] :: splitFields cs := by
  rw [splitFields, if_pos h]

theorem splitFields_cons_nonspace {c : Char} (h : isJsSpace c = false) (cs : List Char)
    (f : List Char) (fs : List (List Char)) (hsf : splitFields cs = f :: fs) :
    splitFields (c :: cs) = (c :: f) :: fs := by
  rw [splitFields, if_neg (by simp [h]), hsf]

theorem splitFields_ne_nil (s : List Char) : splitFields s ≠ [] := by
  cases s with
  | nil => simp [splitFields]
  | cons c cs =>
    by_cases h : isJsSpace c = true
    · rw [splitFields_cons_space h]; simp
    · cases hsf : splitFields cs with
      | nil => exact absurd hsf (splitFields_ne_nil cs)
      | cons f fs =>
        rw [splitFields_cons_nonspace (by simpa using h) cs f fs hsf]
        simp

theorem mem_splitFields (s : List Char) :
    ∀ w ∈ splitFields s, ∀ c ∈ w, c ∈ s ∧ isJsSpace c = false := by
  induction s with
  | nil =>
    intro w hw c hc
    simp only [splitFields, List.mem_singleton] at hw
    subst hw
    cases hc
  | cons a s ih =>
    intro w hw c hc
    by_cases hsp : isJsSpace a = true
    · rw [splitFields_cons_space hsp] at hw
      rcases List.mem_cons.mp hw with rfl | hw'
      · cases hc
      · obtain ⟨h1, h2⟩ := ih w hw' c hc
        exact ⟨List.mem_cons_of_mem _ h1, h2⟩
    · have hsp' : isJsSpace a = false := by simpa using hsp
      cases hsf : splitFields s with
      | nil => exact absurd hsf (splitFields_ne_nil s)
      | cons f fs =>
        rw [splitFields_cons_nonspace hsp' s f fs hsf] at hw
        rcases List.mem_cons.mp hw with rfl | hw'
        · rcases List.mem_cons.mp hc with rfl | hc'
          · exact ⟨List.mem_cons_self _ _, hsp'⟩
          · obtain ⟨h1, h2⟩ := ih f (by rw [hsf]; exact List.mem_cons_self _ _) c hc'
            exact ⟨List.mem_cons_of_mem _ h1, h2⟩
        · obtain ⟨h1, h2⟩ := ih w (by rw [hsf]; exact List.mem_cons_of_mem _ hw') c hc
          exact ⟨List.mem_cons_of_mem _ h1, h2⟩

theorem joinTokens_single (w : List Char) : joinTokens [w] = w := rfl

theorem joinTokens_cons_cons (w x : List Char) (ws : List (List Char)) :
    joinTokens (w :: x :: ws) = w ++ ' ' :: joinTokens (x :: ws) := rfl

theorem mem_joinTokens (ws : List (List Char)) (c : Char) (hc : c ∈ joinTokens ws) :
    (∃ w ∈ ws, c ∈ w) ∨ c = ' ' := by
  induction ws with
  | nil => cases hc
  | cons w ws ih =>
    cases ws with
    | nil => exact Or.inl ⟨w, List.mem_cons_self _ _, by simpa [joinTokens_single] using hc⟩
    | cons x ws' =>
      rw [joinTokens_cons_cons] at hc
      rcases List.mem_append.mp hc with h | h
      · exact Or.inl ⟨w, List.mem_cons_self _ _, h⟩
      · rcases List.mem_cons.mp h with rfl | h'
        · exact Or.inr rfl
        · rcases ih h' with ⟨w', hw', hcw'⟩ | h''
          · exact Or.inl ⟨w', List.mem_cons_of_mem _ hw', hcw'⟩
          · exact Or.inr h''

theorem getKeywordSet_token_facts (text : List Char) :
    ∀ w ∈ getKeywordSet text,
      w ≠ [] ∧ stopWords.contains w = false ∧ ∀ c ∈ w, tokenChar c := by
  intro w hw
  rw [getKeywordSet, mem_firstDedup, List.mem_filter] at hw
  obtain ⟨hmem, hcond⟩ := hw
  simp only [Bool.and_eq_true, Bool.not_eq_true'] at hcond
  refine ⟨?_, hcond.2, ?_⟩
  · intro hnil
    subst hnil
    simp at hcond
  · intro c hc
    obtain ⟨hcs, hnsp⟩ := mem_splitFields _ w hmem c hc
    exact ⟨(List.mem_filter.mp hcs).2, hnsp⟩

theorem map_jsToLower_joinTokens (ws : List (List Char))
    (h : ∀ w ∈ ws, ∀ c ∈ w, tokenChar c) :
    (joinTokens ws).map jsToLower = joinTokens ws := by
  have hpt : ∀ c ∈ joinTokens ws, jsToLower c = id c := by
    intro c hc
    rcases mem_joinTokens ws c hc with ⟨w, hw, hcw⟩ | rfl
    · exact jsToLower_eq_self_of_tokenChar (h w hw c hcw)
    · decide
  rw [List.map_congr_left hpt, List.map_id]

theorem filter_keepChar_joinTokens (ws : List (List Char))
    (h : ∀ w ∈ ws, ∀ c ∈ w, tokenChar c) :
    (joinTokens ws).filter keepChar = joinTokens ws :=
  List.filter_eq_self.mpr fun c hc => by
    rcases mem_joinTokens ws c hc with ⟨w, hw, hcw⟩ | rfl
    · exact (h w hw c hcw).1
    · decide

theorem splitFields_append_left (w r : List Char) (hw : ∀ c ∈ w, isJsSpace c = false)
    (f : List Char) (fs : List (List Char)) (hr : splitFields r = f :: fs) :
    splitFields (w ++ r) = (w ++ f) :: fs := by
  induction w with
  | nil => simpa using hr
  | cons c w' ih =>
    have hc : isJsSpace c = false := hw c (List.mem_cons_self _ _)
    have ih' := ih fun d hd => hw d (List.mem_cons_of_mem _ hd)
    rw [List.cons_append, splitFields_cons_nonspace hc _ _ _ ih', List.cons_append]

theorem splitFields_joinTokens (ts : List (List Char)) (hne : ts ≠ [])
    (h1 : ∀ w ∈ ts, ∀ c ∈ w, isJsSpace c = false) :
    splitFields (joinTokens ts) = ts := by
  induction ts with
  | nil => exact absurd rfl hne
  | cons w ws ih =>
    cases ws with
    | nil =>
      rw [joinTokens_single]
      have := splitFields_append_left w [] (h1 w (List.mem_cons_self _ _)) [] [] rfl
      simpa using this
    | cons x ws' =>
      rw [joinTokens_cons_cons]
      have ihx : splitFields (joinTokens (x :: ws')) = x :: ws' :=
        ih (by simp) fun u hu => h1 u (List.mem_cons_of_mem _ hu)
      have hr : splitFields (' ' :: joinTokens (x :: ws')) = [] :: x :: ws' := by
        rw [splitFields_cons_space (by decide), ihx]
      have := splitFields_append_left w _ (h1 w (List.mem_cons_self _ _)) [] (x :: ws') hr
      simpa using this

theorem nodup_getKeywordSet (text : List Char) : (getKeywordSet text).Nodup := by
  rw [getKeywordSet]
  exact nodup_firstDedup _

theorem getKeywordSet_idem (text : List Char) :
    getKeywordSet (joinTokens (getKeywordSet text)) = getKeywordSet text := by
  have facts := getKeywordSet_token_facts text
  by_cases hnil : getKeywordSet text = []
  · rw [hnil]
    with_unfolding_all decide
  · have htc : ∀ w ∈ getKeywordSet text, ∀ c ∈ w, tokenChar c :=
      fun w hw => (facts w hw).2.2
    have hsp : ∀ w ∈ getKeywordSet text, ∀ c ∈ w, isJsSpace c = false :=
      fun w hw c hc => (htc w hw c hc).2
    conv_lhs => rw [getKeywordSet]
    rw [map_jsToLower_joinTokens _ htc, filter_keepChar_joinTokens _ htc,
        splitFields_joinTokens _ hnil hsp,
        List.filter_eq_self.mpr fun w hw => ?_,
        firstDedup_eq_self _ (nodup_getKeywordSet text)]
    obtain ⟨h1, h2, -⟩ := facts w hw
    have h2' : w ∉ stopWords := fun hm => by
      have : stopWords.contains w = true := (contains_iff_mem _ _).mpr hm
      rw [this] at h2
      cases h2
    simp [h1, h2']
/-- The specification's Jaccard similarity on finite sets:
`|A∩B| / |A∪B|`, defined as `0` whenever either operand is empty. -/
def jaccardSpec (A B : Finset (List Char)) : ℚ :=
  if A = ∅ ∨ B = ∅ then 0 else ((A ∩ B).card : ℚ) / ((A ∪ B).card : ℚ)

theorem inter_length (A B : List (List Char)) (hA : A.Nodup) :
    (A.filter (fun x => B.contains x)).length = (A.toFinset ∩ B.toFinset).card := by
  rw [← List.toFinset_card_of_nodup (List.Nodup.filter _ hA)]
  congr 1
  ext x
  simp only [List.mem_toFinset, List.mem_filter, Finset.mem_inter]
  constructor
  · rintro ⟨h1, h2⟩
    exact ⟨h1, (contains_iff_mem _ _).mp h2⟩
  · rintro ⟨h1, h2⟩
    exact ⟨h1, (contains_iff_mem _ _).mpr h2⟩

theorem union_length (A B : List (List Char)) :
    (firstDedup (A ++ B)).length = (A.toFinset ∪ B.toFinset).card := by
  rw [length_firstDedup, List.toFinset_append]

theorem calculateSimilarity_eq_jaccardSpec (A B : List (List Char)) (hA : A.Nodup) :
    calculateSimilarity A B = jaccardSpec A.toFinset B.toFinset := by
  have hiff : (A.length = 0 ∨ B.length = 0) ↔ (A.toFinset = ∅ ∨ B.toFinset = ∅) := by
    simp [List.length_eq_zero, List.toFinset_eq_empty_iff]
  by_cases h0 : A.length = 0 ∨ B.length = 0
  · rw [calculateSimilarity, if_pos h0, jaccardSpec, if_pos (hiff.mp h0)]
  · have hA0 : A ≠ [] := fun hc => h0 (Or.inl (by simp [hc]))
    obtain ⟨a, ha⟩ := List.exists_mem_of_ne_nil A hA0
    have hmem : a ∈ A.toFinset ∪ B.toFinset := by
      simp only [Finset.mem_union, List.mem_toFinset]
      exact Or.inl ha
    have hcard : (A.toFinset ∪ B.toFinset).card ≠ 0 :=
      Finset.card_ne_zero_of_mem hmem
    have hu : ¬((firstDedup (A ++ B)).length = 0) := by
      rw [union_length]
      exact hcard
    rw [calculateSimilarity, if_neg h0, if_neg hu,
        jaccardSpec, if_neg (fun hc => h0 (hiff.mpr hc)),
        inter_length A B hA, union_length A B]

theorem calculateSimilarity_nonneg (A B : List (List Char)) :
    0 ≤ calculateSimilarity A B := by
  rw [calculateSimilarity]
  split
  · exact le_refl 0
  · split
    · exact le_refl 0
    · exact div_nonneg (Nat.cast_nonneg _) (Nat.cast_nonneg _)

theorem calculateSimilarity_le_one (A B : List (List Char)) (hA : A.Nodup) :
    calculateSimilarity A B ≤ 1 := by
  rw [calculateSimilarity]
  split
  · exact zero_le_one
  · split
    · exact zero_le_one
    · next h0 hu =>
      have hu' : (A.toFinset ∪ B.toFinset).card ≠ 0 := by
        rwa [union_length] at hu
      rw [inter_length A B hA, union_length A B,
          div_le_one (by exact_mod_cast Nat.pos_of_ne_zero hu')]
      exact_mod_cast Finset.card_le_card Finset.inter_subset_union

theorem calculateSimilarity_self (A : List (List Char)) (hA : A.Nodup) (hne : A ≠ []) :
    calculateSimilarity A A = 1 := by
  have hl : A.length ≠ 0 := by simpa [List.length_eq_zero] using hne
  rw [calculateSimilarity, if_neg (by rintro (h | h) <;> exact hl h),
      firstDedup_append_self A hA,
      List.filter_eq_self.mpr fun b hb => (contains_iff_mem _ _).mpr hb,
      if_neg hl]
  exact div_self (by exact_mod_cast hl)

theorem calculateSimilarity_empty_right (A : List (List Char)) :
    calculateSimilarity A [] = 0 := by
  simp [calculateSimilarity]

theorem scoreItem_eq_some {qk tk : List (List Char)} {price : ℚ} {item : Candidate}
    {sc : Scored} (h : scoreItem qk tk price item = some sc) :
    jsLt (JsNum.num 0) item.sale_price = true ∧
    jsLt item.sale_price (JsNum.num price) = true ∧
    sc = ⟨item.product_title, item.sale_price,
      (0.40 : ℚ) * calculateSimilarity qk (getKeywordSet item.product_title)
        + (0.60 : ℚ) * calculateSimilarity tk (getKeywordSet item.product_title)⟩ := by
  simp only [scoreItem] at h
  split at h
  · cases h
  · next hcond =>
    have hab : (jsLt (JsNum.num 0) item.sale_price &&
        jsLt item.sale_price (JsNum.num price)) = true := by
      revert hcond
      cases jsLt (JsNum.num 0) item.sale_price &&
        jsLt item.sale_price (JsNum.num price) <;> simp
    obtain ⟨h1, h2⟩ := Bool.and_eq_true_iff.mp hab
    exact ⟨h1, h2, (Option.some_inj.mp h).symm⟩

theorem scoreItem_none_of_gate {qk tk : List (List Char)} {price : ℚ} {item : Candidate}
    (h : (jsLt (JsNum.num 0) item.sale_price &&
      jsLt item.sale_price (JsNum.num price)) = false) :
    scoreItem qk tk price item = none := by
  simp only [scoreItem, h]
  rfl

theorem smartFilter_sublist (comb : List (List Char)) (cands : List Candidate) :
    (smartFilter comb cands).Sublist cands := by
  cases hc : coreNounOf comb with
  | none =>
    simp only [smartFilter, hc]
    exact List.Sublist.refl _
  | some noun =>
    cases hl : conflictLookup noun with
    | none =>
      simp only [smartFilter, hc, hl]
      exact List.Sublist.refl _
    | some forb =>
      simp only [smartFilter, hc, hl]
      exact List.filter_sublist _

theorem mem_rankCandidates {qk tk : List (List Char)} {price : ℚ} {cands : List Candidate}
    {x : Scored} (h : x ∈ rankCandidates qk tk price cands) :
    0 < x.score ∧ ∃ item ∈ cands, scoreItem qk tk price item = some x := by
  rw [rankCandidates, sortByScoreDesc, List.mem_insertionSort, List.mem_filter] at h
  obtain ⟨hmem, hpos⟩ := h
  obtain ⟨item, hitem, hsome⟩ := List.mem_filterMap.mp hmem
  exact ⟨by simpa using hpos, item, hitem, hsome⟩

theorem mem_corePipeline {t q : List Char} {price : ℚ} {cands : List Candidate} {x : Scored}
    (h : x ∈ corePipeline t q price cands) :
    0 < x.score ∧ ∃ item, item ∈ cands ∧
      scoreItem (getKeywordSet q) (getKeywordSet t) price item = some x := by
  rw [corePipeline] at h
  obtain ⟨hpos, item, hitem, hsome⟩ := mem_rankCandidates h
  exact ⟨hpos, item, (smartFilter_sublist _ _).subset hitem, hsome⟩
theorem filter_orderedInsert_eq (x : Scored) (s : ℚ) (hx : x.score = s) (l : List Scored) :
    (l.orderedInsert scoreGe x).filter (fun y => decide (y.score = s)) =
      x :: l.filter (fun y => decide (y.score = s)) := by
  induction l with
  | nil => simp [List.orderedInsert, hx]
  | cons y ys ih =>
    rw [List.orderedInsert]
    by_cases hr : scoreGe x y
    · rw [if_pos hr, List.filter_cons_of_pos (by simp [hx])]
    · have hy : ¬(y.score = s) := by
        rw [← hx]
        intro hc
        exact hr (le_of_eq hc)
      rw [if_neg hr, List.filter_cons_of_neg (by simp [hy]), ih,
          List.filter_cons_of_neg (by simp [hy])]

theorem filter_orderedInsert_ne (x : Scored) (s : ℚ) (hx : ¬(x.score = s)) (l : List Scored) :
    (l.orderedInsert scoreGe x).filter (fun y => decide (y.score = s)) =
      l.filter (fun y => decide (y.score = s)) := by
  induction l with
  | nil => simp [List.orderedInsert, hx]
  | cons y ys ih =>
    rw [List.orderedInsert]
    by_cases hr : scoreGe x y
    · rw [if_pos hr, List.filter_cons_of_neg (by simp [hx])]
    · by_cases hy : y.score = s
      · rw [if_neg hr, List.filter_cons_of_pos (by simp [hy]), ih,
            List.filter_cons_of_pos (by simp [hy])]
      · rw [if_neg hr, List.filter_cons_of_neg (by simp [hy]), ih,
            List.filter_cons_of_neg (by simp [hy])]

theorem filter_insertionSort_score (s : ℚ) (l : List Scored) :
    (l.insertionSort scoreGe).filter (fun y => decide (y.score = s)) =
      l.filter (fun y => decide (y.score = s)) := by
  induction l with
  | nil => rfl
  | cons b l ih =>
    rw [List.insertionSort]
    by_cases hb : b.score = s
    · rw [filter_orderedInsert_eq b s hb, ih, List.filter_cons_of_pos (by simp [hb])]
    · rw [filter_orderedInsert_ne b s hb, ih, List.filter_cons_of_neg (by simp [hb])]
theorem jsMapOfEntries_concat (es : List (Nat × Product)) (e : Nat × Product) :
    jsMapOfEntries (es ++ [e]) = mapSet (jsMapOfEntries es) e.1 e.2 := by
  rw [jsMapOfEntries, jsMapOfEntries, List.foldl_append]
  rfl

theorem jsMapOfEntries_spec (es : List (Nat × Product)) :
    (jsMapOfEntries es).map Prod.fst = firstDedup (es.map Prod.fst) ∧
    ∀ kv ∈ jsMapOfEntries es,
      es.reverse.find? (fun q => decide (q.1 = kv.1)) = some kv := by
  induction es using List.reverseRecOn with
  | nil => exact ⟨rfl, fun kv hkv => absurd hkv (by simp [jsMapOfEntries])⟩
  | append_singleton es e ih =>
    obtain ⟨ih1, ih2⟩ := ih
    rw [jsMapOfEntries_concat, mapSet]
    have hrev : (es ++ [e]).reverse = e :: es.reverse := by
      rw [List.reverse_append]
      rfl
    have hkeys : (es ++ [e]).map Prod.fst = es.map Prod.fst ++ [e.1] := by
      rw [List.map_append]
      rfl
    by_cases hk : e.1 ∈ (jsMapOfEntries es).map Prod.fst
    · have hk' : e.1 ∈ es.map Prod.fst := by
        rw [ih1, mem_firstDedup] at hk
        exact hk
      rw [if_pos hk]
      constructor
      · have hmaps :
            ((jsMapOfEntries es).map fun kv =>
              if kv.1 = e.1 then (e.1, e.2) else kv).map Prod.fst =
              (jsMapOfEntries es).map Prod.fst := by
          rw [List.map_map]
          exact List.map_congr_left fun kv _ => by
            by_cases h : kv.1 = e.1 <;> simp [h, Function.comp]
        rw [hmaps, ih1, hkeys, firstDedup_concat, if_pos hk']
      · intro kv hkv
        rw [hrev]
        obtain ⟨kv', hkv', hupd⟩ := List.mem_map.mp hkv
        by_cases h : kv'.1 = e.1
        · rw [if_pos h] at hupd
          subst hupd
          simp [List.find?]
        · rw [if_neg h] at hupd
          subst hupd
          have h' : ¬ e.1 = kv'.1 := fun hc => h hc.symm
          simp only [List.find?, h', decide_eq_false]
          exact ih2 kv' hkv'
    · have hk' : e.1 ∉ es.map Prod.fst := fun hc => hk (by rw [ih1, mem_firstDedup]; exact hc)
      rw [if_neg hk]
      constructor
      · rw [List.map_append, ih1, hkeys, firstDedup_concat, if_neg hk']
        rfl
      · intro kv hkv
        rw [hrev]
        rcases List.mem_append.mp hkv with hin | hlast
        · have hne : ¬ e.1 = kv.1 := by
            intro hc
            apply hk
            rw [hc]
            exact List.mem_map_of_mem Prod.fst hin
          simp only [List.find?, hne, decide_eq_false]
          exact ih2 kv hin
        · have hkv' : kv = (e.1, e.2) := by simpa using hlast
          subst hkv'
          simp [List.find?]

theorem dedupMerge_spec (A B : List Product) :
    (dedupMerge A B).map Product.product_id =
      firstDedup ((A ++ B).map Product.product_id) ∧
    ∀ p ∈ dedupMerge A B,
      (A ++ B).reverse.find? (fun q => decide (q.product_id = p.product_id)) = some p := by
  obtain ⟨h1, h2⟩ := jsMapOfEntries_spec ((A ++ B).map fun item => (item.product_id, item))
  have hvals : ∀ kv ∈ jsMapOfEntries ((A ++ B).map fun item => (item.product_id, item)),
      kv.1 = kv.2.product_id := by
    intro kv hkv
    have hfind := h2 kv hkv
    have hmem : kv ∈ ((A ++ B).map fun item => (item.product_id, item)).reverse :=
      List.mem_of_find?_eq_some hfind
    rw [List.mem_reverse] at hmem
    obtain ⟨item, -, hitem⟩ := List.mem_map.mp hmem
    rw [← hitem]
  constructor
  · rw [dedupMerge, List.map_map]
    have hcongr :
        (jsMapOfEntries ((A ++ B).map fun item => (item.product_id, item))).map
          (Product.product_id ∘ Prod.snd) =
        (jsMapOfEntries ((A ++ B).map fun item => (item.product_id, item))).map Prod.fst :=
      List.map_congr_left fun kv hkv => (hvals kv hkv).symm
    rw [hcongr, h1, List.map_map]
    rfl
  · intro p hp
    rw [dedupMerge] at hp
    obtain ⟨kv, hkv, hsnd⟩ := List.mem_map.mp hp
    have hkey : kv.1 = p.product_id := by
      rw [hvals kv hkv, hsnd]
    have hfind := h2 kv hkv
    rw [← List.map_reverse, List.find?_map] at hfind
    have hpred :
        ((fun q : Nat × Product => decide (q.1 = kv.1)) ∘
          fun item : Product => (item.product_id, item)) =
          fun q : Product => decide (q.product_id = p.product_id) := by
      funext q
      simp [Function.comp, hkey]
    rw [hpred] at hfind
    obtain ⟨q0, hq0, hq0e⟩ := Option.map_eq_some'.mp hfind
    have : q0 = p := by
      have := congrArg Prod.snd hq0e
      simpa [hsnd] using this
    rw [hq0, this]
/-- Claim C1, counterexample: at A = [{id 2, title "a2"}] and
B = [{id 2, title "b2"}] the merged result keeps B's record, not A's, so
"list A's entries win over later duplicates from list B" fails on the code:
`new Map` overwrites the value stored at an existing key. -/
theorem C1_counterexample :
    dedupMerge [⟨2, "a2".data⟩] [⟨2, "b2".data⟩] = [⟨2, "b2".data⟩] ∧
    (⟨2, "b2".data⟩ : Product) ≠ ⟨2, "a2".data⟩ := by
  with_unfolding_all decide

/-- Claim C1, amended: dedup-merge concatenates A then B and collapses by the
unique candidate identifier; the merged output lists the identifiers in order
of first occurrence (first conjunct), but the record kept for each identifier
is the LAST occurrence in A ++ B — so for an identifier present in both
lists, list B's entry wins over list A's (second conjunct). -/
theorem C1_dedupMerge_amended (A B : List Product) :
    (dedupMerge A B).map Product.product_id =
      firstDedup ((A ++ B).map Product.product_id) ∧
    ∀ p ∈ dedupMerge A B,
      (A ++ B).reverse.find? (fun q => decide (q.product_id = p.product_id)) = some p :=
  dedupMerge_spec A B

/-- Claim C1, witness: the amended theorem evaluated on the spec's own
example lists (ids [1,2] and [2,3]). -/
theorem C1_witness :
    (dedupMerge ([⟨1, "a1".data⟩, ⟨2, "a2".data⟩] : List Product)
        ([⟨2, "b2".data⟩, ⟨3, "b3".data⟩] : List Product)).map Product.product_id =
      firstDedup ((([⟨1, "a1".data⟩, ⟨2, "a2".data⟩] : List Product) ++
        ([⟨2, "b2".data⟩, ⟨3, "b3".data⟩] : List Product)).map Product.product_id) ∧
    ((([⟨1, "a1".data⟩, ⟨2, "a2".data⟩] : List Product) ++
        ([⟨2, "b2".data⟩, ⟨3, "b3".data⟩] : List Product)).reverse).find?
        (fun q => decide (q.product_id = (⟨2, "b2".data⟩ : Product).product_id)) =
      some (⟨2, "b2".data⟩ : Product) :=
  ⟨(C1_dedupMerge_amended ([⟨1, "a1".data⟩, ⟨2, "a2".data⟩] : List Product)
      ([⟨2, "b2".data⟩, ⟨3, "b3".data⟩] : List Product)).1,
   (C1_dedupMerge_amended ([⟨1, "a1".data⟩, ⟨2, "a2".data⟩] : List Product)
      ([⟨2, "b2".data⟩, ⟨3, "b3".data⟩] : List Product)).2 (⟨2, "b2".data⟩ : Product)
      (by with_unfolding_all decide)⟩

/-- Claim C7: the Jaccard similarity satisfies jaccard(A, A) = 1 for every
nonempty set A (JS sets are duplicate-free, hence the Nodup hypothesis) and
jaccard(A, ∅) = 0 for every A. -/
theorem C7_jaccard_self_empty :
    (∀ A : List (List Char), A.Nodup → A ≠ [] → calculateSimilarity A A = 1) ∧
    (∀ A : List (List Char), calculateSimilarity A [] = 0) :=
  ⟨calculateSimilarity_self, calculateSimilarity_empty_right⟩

/-- Claim C7, witness: both parts evaluated at the concrete set {"case"}. -/
theorem C7_witness :
    calculateSimilarity ["case".data] ["case".data] = 1 ∧
    calculateSimilarity ["case".data] [] = 0 :=
  ⟨C7_jaccard_self_empty.1 ["case".data] (by decide) (by decide),
   C7_jaccard_self_empty.2 ["case".data]⟩

/-- Claim C8: tokenize is idempotent on its own output (re-tokenizing the
joined tokens yields the same keyword set), never returns a stop-word or the
empty string, collapses repeated words (the result is duplicate-free), and
maps empty input to the empty set. -/
theorem C8_tokenize_props :
    (∀ text : List Char,
      getKeywordSet (joinTokens (getKeywordSet text)) = getKeywordSet text) ∧
    (∀ text : List Char, ∀ w ∈ getKeywordSet text, w ∉ stopWords ∧ w ≠ []) ∧
    (∀ text : List Char, (getKeywordSet text).Nodup) ∧
    getKeywordSet [] = [] := by
  refine ⟨getKeywordSet_idem, ?_, nodup_getKeywordSet, by with_unfolding_all decide⟩
  intro text w hw
  obtain ⟨h1, h2, -⟩ := getKeywordSet_token_facts text w hw
  refine ⟨fun hm => ?_, h1⟩
  have hX : stopWords.contains w = true := (contains_iff_mem _ _).mpr hm
  rw [hX] at h2
  cases h2

/-- Claim C8, witness: the no-stop-word / no-empty-string part applied to the
token "foo" of the text "foo foo" (which also collapses the repetition). -/
theorem C8_witness :
    "foo".data ∉ stopWords ∧ "foo".data ≠ [] :=
  C8_tokenize_props.2.1 "foo foo".data "foo".data (by with_unfolding_all decide)
/-- Claim C2: the price gate fires before any similarity computation — a
candidate whose parsed price fails `itemPriceNum > 0 && itemPriceNum <
amazonPrice` is rejected as `null` (first conjunct) — and consequently every
ScoredCandidate emitted by the pipeline carries a finite parsed price `p`
with `0 < p < referencePrice` (second conjunct). -/
theorem C2_price_gate :
    (∀ (qk tk : List (List Char)) (price : ℚ) (item : Candidate),
      (jsLt (JsNum.num 0) item.sale_price &&
        jsLt item.sale_price (JsNum.num price)) = false →
      scoreItem qk tk price item = none) ∧
    (∀ (title query : List Char) (price : ℚ) (cands : List Candidate) (x : Scored),
      x ∈ corePipeline title query price cands →
      ∃ p : ℚ, x.price = JsNum.num p ∧ 0 < p ∧ p < price) := by
  refine ⟨fun qk tk price item h => scoreItem_none_of_gate h, ?_⟩
  intro title query price cands x hx
  obtain ⟨-, item, -, hsome⟩ := mem_corePipeline hx
  obtain ⟨h1, h2, hsc⟩ := scoreItem_eq_some hsome
  obtain ⟨p, hp, hp0, hpr⟩ := jsLt_gate h1 h2
  refine ⟨p, ?_, hp0, hpr⟩
  rw [hsc]
  exact hp

/-- Claim C2, witness: a candidate at price 5 against reference price 10 is
emitted with parsed price strictly between 0 and 10; the gate-rejection part
applied to a candidate priced 12 against reference 10. -/
theorem C2_witness :
    scoreItem (getKeywordSet "".data) (getKeywordSet "phone case".data) 10
      ⟨"Phone Case for iPhone 14".data, JsNum.num 12⟩ = none ∧
    ∃ p : ℚ,
      (⟨"phone case red".data, JsNum.num 5, 3/5⟩ : Scored).price = JsNum.num p ∧
      0 < p ∧ p < 10 :=
  ⟨C2_price_gate.1 (getKeywordSet "".data) (getKeywordSet "phone case".data) 10
      ⟨"Phone Case for iPhone 14".data, JsNum.num 12⟩ (by with_unfolding_all decide),
   C2_price_gate.2 "phone case red".data "".data 10
      [⟨"phone case red".data, JsNum.num 5⟩]
      (⟨"phone case red".data, JsNum.num 5, 3/5⟩ : Scored)
      (by with_unfolding_all decide)⟩

/-- Claim C3: every ScoredCandidate emitted by the scoring path has a score
strictly greater than 0 and at most 1; candidates with blended score ≤ 0 are
filtered out (`.filter(item => item !== null && item.score > 0)`). -/
theorem C3_score_range :
    ∀ (title query : List Char) (price : ℚ) (cands : List Candidate) (x : Scored),
      x ∈ corePipeline title query price cands → 0 < x.score ∧ x.score ≤ 1 := by
  intro title query price cands x hx
  obtain ⟨hpos, item, -, hsome⟩ := mem_corePipeline hx
  refine ⟨hpos, ?_⟩
  obtain ⟨-, -, hsc⟩ := scoreItem_eq_some hsome
  rw [hsc]
  have hq := calculateSimilarity_le_one (getKeywordSet query)
    (getKeywordSet item.product_title) (nodup_getKeywordSet query)
  have ht := calculateSimilarity_le_one (getKeywordSet title)
    (getKeywordSet item.product_title) (nodup_getKeywordSet title)
  have hq0 := calculateSimilarity_nonneg (getKeywordSet query)
    (getKeywordSet item.product_title)
  have ht0 := calculateSimilarity_nonneg (getKeywordSet title)
    (getKeywordSet item.product_title)
  show (0.40 : ℚ) * _ + (0.60 : ℚ) * _ ≤ 1
  nlinarith

/-- Claim C3, witness: a concrete pipeline run emitting one candidate whose
score 3/5 lies in (0, 1]. -/
theorem C3_witness :
    0 < (⟨"phone case red".data, JsNum.num 5, 3/5⟩ : Scored).score ∧
    (⟨"phone case red".data, JsNum.num 5, 3/5⟩ : Scored).score ≤ 1 :=
  C3_score_range "phone case red".data "".data 10
    [⟨"phone case red".data, JsNum.num 5⟩]
    (⟨"phone case red".data, JsNum.num 5, 3/5⟩ : Scored)
    (by with_unfolding_all decide)
/-- Claim C5: for every candidate that passes the price gate, the final score
equals 0.40 * jaccard(referenceQueryKeywords, candidateKeywords) + 0.60 *
jaccard(referenceTitleKeywords, candidateKeywords), where jaccard is the
set-theoretic |A∩B| / |A∪B|, defined as 0 whenever either operand is empty
(`jaccardSpec`). -/
theorem C5_blend_formula :
    ∀ (query title : List Char) (price : ℚ) (item : Candidate) (sc : Scored),
      scoreItem (getKeywordSet query) (getKeywordSet title) price item = some sc →
      sc.score =
        (0.40 : ℚ) * jaccardSpec (getKeywordSet query).toFinset
            (getKeywordSet item.product_title).toFinset +
        (0.60 : ℚ) * jaccardSpec (getKeywordSet title).toFinset
            (getKeywordSet item.product_title).toFinset := by
  intro query title price item sc hsome
  obtain ⟨-, -, hsc⟩ := scoreItem_eq_some hsome
  have hscore : sc.score =
      (0.40 : ℚ) * calculateSimilarity (getKeywordSet query)
          (getKeywordSet item.product_title) +
      (0.60 : ℚ) * calculateSimilarity (getKeywordSet title)
          (getKeywordSet item.product_title) := by
    rw [hsc]
  rw [hscore, calculateSimilarity_eq_jaccardSpec _ _ (nodup_getKeywordSet query),
      calculateSimilarity_eq_jaccardSpec _ _ (nodup_getKeywordSet title)]

/-- Claim C5, witness: the blend formula evaluated on a candidate identical to
the reference title, giving score 1 = 0.40 * 1 + 0.60 * 1. -/
theorem C5_witness :
    (⟨"phone case".data, JsNum.num 5, 1⟩ : Scored).score =
      (0.40 : ℚ) * jaccardSpec (getKeywordSet "phone case".data).toFinset
          (getKeywordSet ((⟨"phone case".data, JsNum.num 5⟩ :
            Candidate)).product_title).toFinset +
      (0.60 : ℚ) * jaccardSpec (getKeywordSet "phone case".data).toFinset
          (getKeywordSet ((⟨"phone case".data, JsNum.num 5⟩ :
            Candidate)).product_title).toFinset :=
  C5_blend_formula "phone case".data "phone case".data 10
    ⟨"phone case".data, JsNum.num 5⟩ ⟨"phone case".data, JsNum.num 5, 1⟩
    (by with_unfolding_all decide)

/-- Claim C9: the core pipeline (filter, score, rank) is a total function
that always returns a (possibly empty) result list with no more entries than
candidates, and an unparsable price (parseFloat yields NaN) is a silent
filtering decision — the scorer returns null, not an error. -/
theorem C9_total_pipeline :
    (∀ (title query : List Char) (price : ℚ) (cands : List Candidate),
      (corePipeline title query price cands).length ≤ cands.length) ∧
    (∀ (qk tk : List (List Char)) (price : ℚ) (item : Candidate),
      item.sale_price = JsNum.nan → scoreItem qk tk price item = none) := by
  constructor
  · intro title query price cands
    rw [corePipeline, rankCandidates, sortByScoreDesc, List.length_insertionSort]
    refine le_trans (List.length_filter_le _ _)
      (le_trans (List.length_filterMap_le _ _) ?_)
    exact (smartFilter_sublist _ cands).length_le
  · intro qk tk price item h
    apply scoreItem_none_of_gate
    rw [h]
    rfl

/-- Claim C9, witness: a candidate with NaN price (malformed text) is
silently rejected by the scorer. -/
theorem C9_witness :
    scoreItem (getKeywordSet "".data) (getKeywordSet "phone case".data) 10
      ⟨"Phone Case".data, JsNum.nan⟩ = none :=
  C9_total_pipeline.2 (getKeywordSet "".data) (getKeywordSet "phone case".data) 10
    ⟨"Phone Case".data, JsNum.nan⟩ rfl

/-- Claim C10: the combined keyword set inserts the search-query keywords
first and then the title keywords, and the core noun is the first token of
this insertion order that lies in PRODUCT_NOUNS: any detected noun is a
vocabulary token from the query or the title, and whenever the query
contributes a vocabulary token, the detected noun comes from the query
(query priority over title). -/
theorem C10_core_noun :
    ∀ query title : List Char,
      (∀ noun, coreNounOf (firstDedup (getKeywordSet query ++ getKeywordSet title)) =
          some noun → noun ∈ PRODUCT_NOUNS ∧
          (noun ∈ getKeywordSet query ∨ noun ∈ getKeywordSet title)) ∧
      ((∃ w ∈ getKeywordSet query, w ∈ PRODUCT_NOUNS) →
        ∃ noun,
          coreNounOf (firstDedup (getKeywordSet query ++ getKeywordSet title)) =
            some noun ∧ noun ∈ getKeywordSet query ∧ noun ∈ PRODUCT_NOUNS) := by
  intro query title
  constructor
  · intro noun hfind
    rw [coreNounOf, find?_firstDedup] at hfind
    refine ⟨(contains_iff_mem _ _).mp (List.find?_some hfind), ?_⟩
    exact List.mem_append.mp (List.mem_of_find?_eq_some hfind)
  · rintro ⟨w, hwq, hwn⟩
    have hq : ((getKeywordSet query).find? fun kw => PRODUCT_NOUNS.contains kw).isSome := by
      rw [List.find?_isSome]
      exact ⟨w, hwq, (contains_iff_mem _ _).mpr hwn⟩
    obtain ⟨noun, hnoun⟩ := Option.isSome_iff_exists.mp hq
    refine ⟨noun, ?_, List.mem_of_find?_eq_some hnoun,
      (contains_iff_mem _ _).mp (List.find?_some hnoun)⟩
    rw [coreNounOf, find?_firstDedup, List.find?_append, hnoun]
    rfl

/-- Claim C10, witness: with query "charger x" and title "case holder", the
query's vocabulary token "charger" is detected in preference to the title's
"case"; both conjuncts applied at this input. -/
theorem C10_witness :
    ("charger".data ∈ PRODUCT_NOUNS ∧
      ("charger".data ∈ getKeywordSet "charger x".data ∨
        "charger".data ∈ getKeywordSet "case holder".data)) ∧
    ∃ noun,
      coreNounOf (firstDedup (getKeywordSet "charger x".data ++
        getKeywordSet "case holder".data)) = some noun ∧
      noun ∈ getKeywordSet "charger x".data ∧ noun ∈ PRODUCT_NOUNS :=
  ⟨(C10_core_noun "charger x".data "case holder".data).1 "charger".data
      (by with_unfolding_all decide),
   (C10_core_noun "charger x".data "case holder".data).2
      ⟨"charger".data, by with_unfolding_all decide, by with_unfolding_all decide⟩⟩
/-- Claim C4: the Smart Filter never adds candidates and never increases the
candidate count (the result is a sublist of the input, preserving relative
order of survivors); when no core noun is found, or the noun has no
ConflictMap entry, the list is returned unchanged; when a conflict entry
exists the result is the order-preserving filter of the input, and a
candidate of the input is kept iff its lower-cased title does NOT contain any
forbidden token of the detected noun as a substring. -/
theorem C4_smart_filter :
    ∀ (combined : List (List Char)) (cands : List Candidate),
      (smartFilter combined cands).Sublist cands ∧
      (smartFilter combined cands).length ≤ cands.length ∧
      (coreNounOf combined = none → smartFilter combined cands = cands) ∧
      (∀ noun, coreNounOf combined = some noun → conflictLookup noun = none →
        smartFilter combined cands = cands) ∧
      (∀ noun forb, coreNounOf combined = some noun → conflictLookup noun = some forb →
        smartFilter combined cands =
          cands.filter (fun item => !forbiddenHit forb item) ∧
        ∀ c ∈ cands, (c ∈ smartFilter combined cands ↔
          ¬ ∃ term ∈ forb, ∃ pre post,
            c.product_title.map jsToLower = pre ++ term ++ post)) := by
  intro combined cands
  refine ⟨smartFilter_sublist combined cands,
    (smartFilter_sublist combined cands).length_le, ?_, ?_, ?_⟩
  · intro h
    simp only [smartFilter, h]
  · intro noun h1 h2
    simp only [smartFilter, h1, h2]
  · intro noun forb h1 h2
    have heq : smartFilter combined cands =
        cands.filter (fun item => !forbiddenHit forb item) := by
      simp only [smartFilter, h1, h2]
    refine ⟨heq, fun c hc => ?_⟩
    rw [heq, List.mem_filter]
    constructor
    · rintro ⟨-, hkeep⟩ ⟨term, hterm, pre, post, hsplit⟩
      rw [Bool.not_eq_true', forbiddenHit] at hkeep
      have hinc : includesChars (c.product_title.map jsToLower) term = true :=
        (includesChars_iff _ _).mpr ⟨pre, post, hsplit⟩
      have hany : forb.any
          (fun t => includesChars (c.product_title.map jsToLower) t) = true :=
        List.any_eq_true.mpr ⟨term, hterm, hinc⟩
      rw [hany] at hkeep
      cases hkeep
    · intro hno
      refine ⟨hc, ?_⟩
      show (!forbiddenHit forb c) = true
      rw [forbiddenHit]
      cases hany : forb.any
          (fun t => includesChars (c.product_title.map jsToLower) t) with
      | false => rfl
      | true =>
        obtain ⟨term, hterm, hinc⟩ := List.any_eq_true.mp hany
        obtain ⟨pre, post, hsplit⟩ := (includesChars_iff _ _).mp hinc
        exact absurd ⟨term, hterm, pre, post, hsplit⟩ hno

/-- Claim C4, witness: with core noun "case" detected, the candidate titled
"Screen Protector for iPhone" is dropped — its lower-cased title contains the
forbidden token "screen" — and the filter equation holds at this input. -/
theorem C4_witness :
    smartFilter ["case".data] [⟨"Screen Protector for iPhone".data, JsNum.num 5⟩] =
      List.filter (fun item => !forbiddenHit
        ["screen".data, "protector".data, "film".data, "glass".data, "charger".data,
         "cable".data, "wallet".data, "airpods".data, "stand".data, "holder".data,
         "mount".data, "grip".data, "powerbank".data] item)
        [⟨"Screen Protector for iPhone".data, JsNum.num 5⟩] ∧
    ((⟨"Screen Protector for iPhone".data, JsNum.num 5⟩ : Candidate) ∈
        smartFilter ["case".data]
          [⟨"Screen Protector for iPhone".data, JsNum.num 5⟩] ↔
      ¬ ∃ term ∈ ["screen".data, "protector".data, "film".data, "glass".data,
          "charger".data, "cable".data, "wallet".data, "airpods".data, "stand".data,
          "holder".data, "mount".data, "grip".data, "powerbank".data],
        ∃ pre post,
          ((⟨"Screen Protector for iPhone".data, JsNum.num 5⟩ :
            Candidate)).product_title.map jsToLower = pre ++ term ++ post) := by
  have T := (C4_smart_filter ["case".data]
      [⟨"Screen Protector for iPhone".data, JsNum.num 5⟩]).2.2.2.2 "case".data
      ["screen".data, "protector".data, "film".data, "glass".data, "charger".data,
       "cable".data, "wallet".data, "airpods".data, "stand".data, "holder".data,
       "mount".data, "grip".data, "powerbank".data]
      (by with_unfolding_all decide) (by with_unfolding_all decide)
  exact ⟨T.1, T.2 ⟨"Screen Protector for iPhone".data, JsNum.num 5⟩
    (by with_unfolding_all decide)⟩

/-- Claim C6: the ranking path stable-sorts the scored candidates by score
descending: the output is a permutation of the input, scores are pairwise
non-increasing along the output (so every adjacent pair is non-increasing),
and for each score value the elements carrying it appear exactly as in the
input (equal scores keep their original relative order — deterministic
tie-break). -/
theorem C6_rank_sort :
    ∀ l : List Scored,
      (sortByScoreDesc l).Perm l ∧
      List.Pairwise (fun a b => b.score ≤ a.score) (sortByScoreDesc l) ∧
      ∀ s : ℚ, (sortByScoreDesc l).filter (fun y => decide (y.score = s)) =
        l.filter (fun y => decide (y.score = s)) := by
  intro l
  exact ⟨List.perm_insertionSort scoreGe l, List.sorted_insertionSort scoreGe l,
    fun s => filter_insertionSort_score s l⟩
